import Mathlib

set_option maxHeartbeats 1000000

/-!
Shallow embedding of the rune `std::future` module
(src/crates/rune/src/modules/future.rs): the future-join combinator.

Modelling choices, stated once here:

* A dynamic value (`Value`) carries the `ValueKind` variants this module
  inspects: `EmptyTuple`, `Tuple`, `Vec`, `Future`, and an opaque arm for
  every other kind.  A future is identified with the outcome it yields when
  driven to completion (`Except VmError Value`), since each future is owned
  and awaited at most once.
* `FuturesUnordered` yields completed tasks in an unspecified order.  The
  wait loop is therefore parametrised by a completion schedule
  `perm : List (Nat × Fut)`: the sequence of `(index, outcome)` events the
  stream delivers.  A schedule is faithful to a given run exactly when it is
  a permutation of the registered tasks; theorems carry that hypothesis.
* The two unchecked accesses in the wait loop (`futures.next().await.unwrap()`
  and `results.get_mut(index).unwrap()`) are modelled as explicit
  `VmErrorKind.panicked` branches, so that their unreachability is a theorem
  rather than an artifact of the embedding.
-/

namespace Rune

/-- Runtime type information as observed by `type_info()`; one tag per
`ValueKind` variant this module distinguishes, plus an opaque arm. -/
inductive TypeInfo where
  | emptyTuple
  | tuple
  | vec
  | future
  | other (name : String)
deriving DecidableEq, Repr

/-- The `VmErrorKind` constructors used by the future module:
`Expected` (from `VmErrorKind::expected::<T>(actual)`), `BadArgument`,
`BadArgumentCount`, the stack error of `Stack::pop`, and a marker for a
Rust panic of an `unwrap` (model-level, see the file comment). -/
inductive VmErrorKind where
  | expected (expectedTy : TypeInfo) (actual : TypeInfo)
  | badArgument (arg : Nat)
  | badArgumentCount (actual : Nat) (expected : Nat)
  | stackError
  | panicked
deriving DecidableEq, Repr

/-- A VM error, as built by `VmResult::err`: one or several error kinds
(`VmResult::err([k1, k2])` produces a composite error carrying both). -/
abbrev VmError := List VmErrorKind

/-- Dynamic values, restricted to the variants the future module inspects.
`future` holds the outcome the underlying pending computation yields once
driven to completion. -/
inductive Value where
  | emptyTuple
  | tuple (items : List Value)
  | vec (items : List Value)
  | future (outcome : Except VmError Value)
  | other (name : String)

/-- Outcome of awaiting one future: `VmResult<Value>`. -/
abbrev Fut := Except VmError Value

/-- `value.type_info()` on the embedded variants. -/
def typeInfo : Value → TypeInfo
  | .emptyTuple => .emptyTuple
  | .tuple _ => .tuple
  | .vec _ => .vec
  | .future _ => .future
  | .other s => .other s

/-- The coercion `for` loop of `try_join_impl` (future.rs lines 62-82):
element by element, in order, obtain the future behind the value via
`Mut::try_map`; on the first non-future element fail with the composite
error `[Expected(Future, actual), BadArgument(index)]`; otherwise register
the task `(index, future)`.  `index` is the running enumeration counter. -/
def coerceLoop : Nat → List Value → Except VmError (List (Nat × Fut))
  | _, [] => .ok []
  | index, v :: rest =>
    match v with
    | .future f =>
      match coerceLoop (index + 1) rest with
      | .ok tasks => .ok ((index, f) :: tasks)
      | .error e => .error e
    | w => .error [.expected .future (typeInfo w), .badArgument index]

/-- `FuturesUnordered::next().await`: deliver the next completion event of
the schedule, `none` when the stream is exhausted.  The loop below unwraps
this on a nonempty stream; its totality there is a stated theorem. -/
def streamNext : List (Nat × Fut) → Option ((Nat × Fut) × List (Nat × Fut))
  | [] => none
  | t :: rest => some (t, rest)

/-- The wait loop of `try_join_impl` (future.rs lines 84-87):
`while !futures.is_empty()` await the next completion `(index, value)`;
a failed task propagates its error (`vm_try!`); otherwise write the value
into the result slot at `index`.  The nonempty match arm consumes exactly
the event `streamNext` yields (the `next().await.unwrap()`); the
`results.get_mut(index).unwrap()` is modelled as an explicit `panicked`
branch. -/
def joinLoop : List (Nat × Fut) → List Value → Except VmError (List Value)
  | [], results => .ok results
  | (index, fut) :: rest, results =>
    match fut with
    | .error e => .error e
    | .ok v =>
      if index < results.length then joinLoop rest (results.set index v)
      else .error [.panicked]

/-- The wait loop as the specification reads it: both accesses are total, the
next completion is taken from the head of the schedule and the slot write
always lands.  Claim C10 states that under the loop invariants the embedded
loop `joinLoop` coincides with this one. -/
def joinLoopTotal : List (Nat × Fut) → List Value → Except VmError (List Value)
  | [], results => .ok results
  | (index, fut) :: rest, results =>
    match fut with
    | .error e => .error e
    | .ok v => joinLoopTotal rest (results.set index v)

/-- `try_join_impl` (future.rs lines 52-90): coerce every element in order,
registering tasks and pushing one empty slot per element; then drive the
wait loop over the completion schedule; finally hand the filled result
buffer to the `factory`.  On full coercion success the result buffer holds
`values.length` copies of `Value::empty()`. -/
def try_join_impl (values : List Value)
    (factory : List Value → Except VmError Value)
    (perm : List (Nat × Fut)) : Except VmError Value :=
  match coerceLoop 0 values with
  | .error e => .error e
  | .ok _tasks =>
    match joinLoop perm (List.replicate values.length Value.emptyTuple) with
    | .error e => .error e
    | .ok results => factory results

/-- `join` (future.rs lines 92-109): classify the single argument.
`EmptyTuple` resolves immediately to `Value::empty()`; `Tuple` and `Vec`
run `try_join_impl` with the factory rebuilding the same shape; anything
else fails with `[BadArgument(0), Expected(Vec, actual)]`. -/
def join (value : Value) (perm : List (Nat × Fut)) : Except VmError Value :=
  match value with
  | .emptyTuple => .ok .emptyTuple
  | .tuple items => try_join_impl items (fun rs => .ok (.tuple rs)) perm
  | .vec items => try_join_impl items (fun rs => .ok (.vec rs)) perm
  | v => .error [.badArgument 0, .expected .vec (typeInfo v)]

/-- `raw_join` (future.rs lines 112-124): reject any argument count other
than one with `BadArgumentCount`; otherwise pop the single value, wrap the
whole `join` pipeline as one future value, and push it back.  The stack is
modelled top-first; the pair returned is `(VmResult<()>, stack after)`. -/
def raw_join (stack : List Value) (args : Nat)
    (perm : List (Nat × Fut)) : Except VmError Unit × List Value :=
  if args ≠ 1 then (.error [.badArgumentCount args 1], stack)
  else
    match stack with
    | [] => (.error [.stackError], stack)
    | v :: rest => (.ok (), Value.future (join v perm) :: rest)

/-- The task list produced by a fully successful coercion of the futures
`fs`, starting the enumeration counter at `k`: `(k, f0), (k+1, f1), ...`. -/
def tasksFrom (k : Nat) : List Fut → List (Nat × Fut)
  | [] => []
  | f :: fs => (k, f) :: tasksFrom (k + 1) fs

/-! Unfolding lemmas for the wait loop. -/

theorem joinLoop_nil (results : List Value) : joinLoop [] results = .ok results := rfl

theorem joinLoop_cons_error (i : Nat) (e : VmError) (rest : List (Nat × Fut))
    (results : List Value) :
    joinLoop ((i, .error e) :: rest) results = .error e := rfl

theorem joinLoop_cons_ok_of_lt {i : Nat} {results : List Value} (h : i < results.length)
    (v : Value) (rest : List (Nat × Fut)) :
    joinLoop ((i, .ok v) :: rest) results = joinLoop rest (results.set i v) := by
  simp [joinLoop, h]

theorem joinLoop_cons_ok_of_ge {i : Nat} {results : List Value}
    (h : ¬ i < results.length) (v : Value) (rest : List (Nat × Fut)) :
    joinLoop ((i, .ok v) :: rest) results = .error [.panicked] := by
  simp [joinLoop, h]

/-! Characterisation of the coercion loop. -/

theorem coerceLoop_map_future (fs : List Fut) (k : Nat) :
    coerceLoop k (fs.map Value.future) = .ok (tasksFrom k fs) := by
  induction fs generalizing k with
  | nil => rfl
  | cons f fs ih =>
    simp only [List.map_cons, coerceLoop, ih (k + 1), tasksFrom]

theorem coerceLoop_ok_inv {values : List Value} {k : Nat} {tasks : List (Nat × Fut)}
    (h : coerceLoop k values = .ok tasks) :
    ∃ fs : List Fut, values = fs.map Value.future ∧ tasks = tasksFrom k fs := by
  induction values generalizing k tasks with
  | nil =>
    refine ⟨[], rfl, ?_⟩
    simpa [coerceLoop, tasksFrom] using h.symm
  | cons v rest ih =>
    cases v with
    | future f =>
      simp only [coerceLoop] at h
      cases hr : coerceLoop (k + 1) rest with
      | ok ts =>
        rw [hr] at h
        obtain ⟨fs, hfs, hts⟩ := ih hr
        refine ⟨f :: fs, by simp [hfs], ?_⟩
        simp only [Except.ok.injEq] at h
        simp [tasksFrom, ← h, hts]
      | error e => rw [hr] at h; exact absurd h (by simp)
    | emptyTuple => exact absurd h (by simp [coerceLoop])
    | tuple items => exact absurd h (by simp [coerceLoop])
    | vec items => exact absurd h (by simp [coerceLoop])
    | other s => exact absurd h (by simp [coerceLoop])

theorem mem_tasksFrom {fs : List Fut} {k i : Nat} {f : Fut} :
    (i, f) ∈ tasksFrom k fs ↔ ∃ j, ∃ h : j < fs.length, i = k + j ∧ f = fs[j] := by
  induction fs generalizing k with
  | nil => simp [tasksFrom]
  | cons g fs ih =>
    simp only [tasksFrom, List.mem_cons, Prod.mk.injEq, ih]
    constructor
    · rintro (⟨rfl, rfl⟩ | ⟨j, hj, rfl, rfl⟩)
      · exact ⟨0, by simp, by simp, by simp⟩
      · exact ⟨j + 1, by simpa using hj, by omega, by simp⟩
    · rintro ⟨j, hj, rfl, rfl⟩
      cases j with
      | zero => exact Or.inl ⟨by omega, by simp⟩
      | succ j => exact Or.inr ⟨j, by simpa using hj, by omega, by simp⟩

theorem tasksFrom_fst_lower {fs : List Fut} {k : Nat} {t : Nat × Fut}
    (h : t ∈ tasksFrom k fs) : k ≤ t.1 := by
  obtain ⟨i, f⟩ := t
  obtain ⟨j, hj, rfl, -⟩ := mem_tasksFrom.mp h
  omega

theorem tasksFrom_fst_upper {fs : List Fut} {k : Nat} {t : Nat × Fut}
    (h : t ∈ tasksFrom k fs) : t.1 < k + fs.length := by
  obtain ⟨i, f⟩ := t
  obtain ⟨j, hj, rfl, -⟩ := mem_tasksFrom.mp h
  omega

theorem tasksFrom_fst_nodup (fs : List Fut) (k : Nat) :
    ((tasksFrom k fs).map Prod.fst).Nodup := by
  induction fs generalizing k with
  | nil => simp [tasksFrom]
  | cons f fs ih =>
    simp only [tasksFrom, List.map_cons, List.nodup_cons]
    refine ⟨?_, ih (k + 1)⟩
    intro hk
    obtain ⟨t, ht, hfst⟩ := List.mem_map.mp hk
    have := tasksFrom_fst_lower ht
    omega

theorem coerceLoop_fail {values : List Value} {k : Nat} {w : Value} (base : Nat)
    (hk : values[k]? = some w)
    (hw : ∀ f, w ≠ Value.future f)
    (hpre : ∀ j, j < k → ∃ f, values[j]? = some (Value.future f)) :
    coerceLoop base values =
      .error [.expected .future (typeInfo w), .badArgument (base + k)] := by
  induction values generalizing k base with
  | nil => simp at hk
  | cons v rest ih =>
    cases k with
    | zero =>
      simp only [List.getElem?_cons_zero, Option.some.injEq] at hk
      subst hk
      cases v with
      | future f => exact absurd rfl (hw f)
      | emptyTuple => rfl
      | tuple items => rfl
      | vec items => rfl
      | other s => rfl
    | succ j =>
      obtain ⟨f, hf⟩ := hpre 0 (Nat.succ_pos j)
      simp only [List.getElem?_cons_zero, Option.some.injEq] at hf
      subst hf
      simp only [List.getElem?_cons_succ] at hk
      have hrest : ∀ m, m < j → ∃ g, rest[m]? = some (Value.future g) := by
        intro m hm
        simpa using hpre (m + 1) (by omega)
      have harith : base + 1 + j = base + (j + 1) := by omega
      have := ih (base + 1) hk hrest
      simp only [coerceLoop, this, harith]

/-! Behaviour of the wait loop. -/

theorem joinLoop_writes (perm : List (Nat × Fut)) (acc vlist : List Value)
    (hlen : acc.length = vlist.length)
    (hmem : ∀ i f, (i, f) ∈ perm → ∃ h : i < vlist.length, f = Except.ok vlist[i])
    (hnd : (perm.map Prod.fst).Nodup)
    (hinv : ∀ j, j ∉ perm.map Prod.fst → acc[j]? = vlist[j]?) :
    joinLoop perm acc = .ok vlist := by
  induction perm generalizing acc with
  | nil =>
    rw [joinLoop_nil]
    congr 1
    exact List.ext_getElem? fun j => hinv j (by simp)
  | cons t rest ih =>
    obtain ⟨i, f⟩ := t
    obtain ⟨hi, rfl⟩ := hmem i f (List.mem_cons_self _ _)
    have hia : i < acc.length := hlen ▸ hi
    rw [joinLoop_cons_ok_of_lt hia]
    simp only [List.map_cons, List.nodup_cons] at hnd
    refine ih (acc.set i vlist[i]) (by simp [hlen]) ?_ hnd.2 ?_
    · intro a g hg
      exact hmem a g (List.mem_cons_of_mem _ hg)
    · intro j hj
      by_cases hji : j = i
      · subst hji
        rw [List.getElem?_set_self hia, List.getElem?_eq_getElem hi]
      · rw [List.getElem?_set_ne (fun h => hji h.symm)]
        exact hinv j (by simp_all)

theorem joinLoop_pre_error (pre post : List (Nat × Fut)) (i : Nat) (e : VmError)
    (results : List Value)
    (hok : ∀ t ∈ pre, t.1 < results.length ∧ ∃ v, t.2 = Except.ok v) :
    joinLoop (pre ++ (i, .error e) :: post) results = .error e := by
  induction pre generalizing results with
  | nil => exact joinLoop_cons_error i e post results
  | cons t rest ih =>
    obtain ⟨a, g⟩ := t
    obtain ⟨ha, v, rfl⟩ := hok (a, g) (List.mem_cons_self _ _)
    rw [List.cons_append, joinLoop_cons_ok_of_lt ha]
    refine ih _ ?_
    intro u hu
    have := hok u (List.mem_cons_of_mem _ hu)
    simpa using this

theorem joinLoop_eq_total (perm : List (Nat × Fut)) (results : List Value)
    (hb : ∀ t ∈ perm, t.1 < results.length) :
    joinLoop perm results = joinLoopTotal perm results := by
  induction perm generalizing results with
  | nil => rw [joinLoop_nil]; rfl
  | cons t rest ih =>
    obtain ⟨i, f⟩ := t
    cases f with
    | error e => rw [joinLoop_cons_error]; rfl
    | ok v =>
      have hi : i < results.length := hb (i, .ok v) (List.mem_cons_self _ _)
      rw [joinLoop_cons_ok_of_lt hi]
      show _ = joinLoopTotal rest (results.set i v)
      refine ih _ ?_
      intro u hu
      have := hb u (List.mem_cons_of_mem _ hu)
      simpa using this

/-! Behaviour of `try_join_impl`. -/

theorem try_join_impl_coerce_error {values : List Value} {e : VmError}
    (factory : List Value → Except VmError Value) (perm : List (Nat × Fut))
    (h : coerceLoop 0 values = .error e) :
    try_join_impl values factory perm = .error e := by
  simp [try_join_impl, h]

theorem try_join_impl_ok {values : List Value}
    {factory : List Value → Except VmError Value} {perm : List (Nat × Fut)} {r : Value}
    (h : try_join_impl values factory perm = .ok r) :
    ∃ rs, factory rs = .ok r := by
  unfold try_join_impl at h
  cases hc : coerceLoop 0 values with
  | error e => rw [hc] at h; exact absurd h (by simp)
  | ok tasks =>
    rw [hc] at h
    cases hl : joinLoop perm (List.replicate values.length Value.emptyTuple) with
    | error e => rw [hl] at h; exact absurd h (by simp)
    | ok rs => rw [hl] at h; exact ⟨rs, h⟩

theorem try_join_impl_resolves (vs : List Value)
    (factory : List Value → Except VmError Value) (perm : List (Nat × Fut))
    (hperm : perm.Perm (tasksFrom 0 (vs.map Except.ok))) :
    try_join_impl (vs.map fun v => Value.future (.ok v)) factory perm = factory vs := by
  have hmapeq : (vs.map fun v => Value.future (.ok v))
      = (vs.map Except.ok).map Value.future := by
    simp [List.map_map, Function.comp]
  have hc : coerceLoop 0 (vs.map fun v => Value.future (.ok v))
      = .ok (tasksFrom 0 (vs.map Except.ok)) := by
    rw [hmapeq]; exact coerceLoop_map_future _ 0
  have hlen : (vs.map fun v => Value.future (.ok v)).length = vs.length := by simp
  have hloop : joinLoop perm
      (List.replicate (vs.map fun v => Value.future (.ok v)).length Value.emptyTuple)
      = .ok vs := by
    refine joinLoop_writes perm _ vs (by simp) ?_ ?_ ?_
    · intro i f hf
      have : (i, f) ∈ tasksFrom 0 (vs.map Except.ok) := hperm.mem_iff.mp hf
      obtain ⟨j, hj, hij, hfj⟩ := mem_tasksFrom.mp this
      have hjv : j < vs.length := by simpa using hj
      refine ⟨by omega, ?_⟩
      subst hij
      simp only [List.getElem_map] at hfj
      simpa [Nat.zero_add] using hfj
    · exact ((hperm.map Prod.fst).nodup_iff).mpr (tasksFrom_fst_nodup _ _)
    · intro j hj
      have hge : vs.length ≤ j := by
        by_contra hlt
        push_neg at hlt
        have hmem : (j, Except.ok vs[j]) ∈ tasksFrom 0 (vs.map Except.ok) := by
          refine mem_tasksFrom.mpr ⟨j, by simpa using hlt, by omega, ?_⟩
          simp
        have : j ∈ perm.map Prod.fst :=
          List.mem_map.mpr ⟨(j, Except.ok vs[j]), hperm.mem_iff.mpr hmem, rfl⟩
        exact hj this
      rw [List.getElem?_eq_none (by simpa using hge), List.getElem?_eq_none hge]
  simp only [List.length_map] at hloop
  simp [try_join_impl, hc, hlen, hloop]

theorem try_join_impl_task_error (fouts : List Fut)
    (factory : List Value → Except VmError Value)
    (pre post : List (Nat × Fut)) (i : Nat) (e : VmError)
    (hperm : (pre ++ (i, Except.error e) :: post).Perm (tasksFrom 0 fouts))
    (hok : ∀ t ∈ pre, ∃ v, t.2 = Except.ok v) :
    try_join_impl (fouts.map Value.future) factory (pre ++ (i, .error e) :: post)
      = .error e := by
  have hc := coerceLoop_map_future fouts 0
  have hloop : joinLoop (pre ++ (i, .error e) :: post)
      (List.replicate (fouts.map Value.future).length Value.emptyTuple) = .error e := by
    refine joinLoop_pre_error pre post i e _ ?_
    intro t ht
    refine ⟨?_, hok t ht⟩
    have hmem : t ∈ tasksFrom 0 fouts :=
      hperm.mem_iff.mp (List.mem_append.mpr (Or.inl ht))
    have := tasksFrom_fst_upper hmem
    simpa using by omega
  simp only [List.length_map] at hloop
  simp [try_join_impl, hc, hloop]

theorem streamNext_total {futures : List (Nat × Fut)} (h : futures ≠ []) :
    ∃ t rest, streamNext futures = some (t, rest) := by
  cases futures with
  | nil => exact absurd rfl h
  | cons t rest => exact ⟨t, rest, rfl⟩

/-! Claims. -/

/-- Claim C1 counterexample: with a non-future element at index 1 after a
valid future, the composite error is
[Expected(Future, observed type), BadArgument(1)]; it does not carry
BadArgument(0), which the claim as stated requires. -/
theorem claim_C1_counterexample :
    join (.tuple [Value.future (.ok .emptyTuple), Value.other "bool"]) []
      = .error [.expected .future (.other "bool"), .badArgument 1]
    ∧ VmErrorKind.badArgument 0 ∉
        ([.expected .future (.other "bool"), .badArgument 1] : VmError) :=
  ⟨rfl, by decide⟩

/-- Claim C1 (amended): for a collection whose element at index k is not a
future while every earlier element is one, the join fails with the single
composite error [Expected(Future, observed type of the element),
BadArgument(k)] — the element index k is carried by the BadArgument fact,
the type-mismatch fact carries no index — and no result is produced. -/
theorem claim_C1 (values : List Value) (k : Nat) (w : Value) (perm : List (Nat × Fut))
    (hk : values[k]? = some w) (hw : ∀ f, w ≠ Value.future f)
    (hpre : ∀ j, j < k → ∃ f, values[j]? = some (Value.future f)) :
    join (.tuple values) perm = .error [.expected .future (typeInfo w), .badArgument k]
    ∧ join (.vec values) perm
        = .error [.expected .future (typeInfo w), .badArgument k] := by
  have h := coerceLoop_fail 0 hk hw hpre
  simp only [Nat.zero_add] at h
  constructor <;> simp [join, try_join_impl, h]

theorem claim_C1_witness :
    join (.tuple [Value.future (.ok .emptyTuple), Value.other "bool",
        Value.future (.ok .emptyTuple)]) []
      = .error [.expected .future (.other "bool"), .badArgument 1] := by
  refine (claim_C1 [Value.future (.ok .emptyTuple), Value.other "bool",
      Value.future (.ok .emptyTuple)] 1 (Value.other "bool") [] rfl
      (fun f h => nomatch h) ?_).1
  intro j hj
  match j, hj with
  | 0, _ => exact ⟨.ok .emptyTuple, rfl⟩

/-- Claim C2: joining a tuple or list of n futures resolving to values
v0..v(n-1) succeeds with exactly the ordered sequence of those values, for
every completion schedule that is a permutation of the registered tasks:
each result lands in the slot recorded at registration, never in a slot
chosen by completion order. -/
theorem claim_C2 (vs : List Value) (perm : List (Nat × Fut))
    (hperm : perm.Perm (tasksFrom 0 (vs.map Except.ok))) :
    join (.tuple (vs.map fun v => Value.future (.ok v))) perm = .ok (.tuple vs)
    ∧ join (.vec (vs.map fun v => Value.future (.ok v))) perm = .ok (.vec vs) :=
  ⟨try_join_impl_resolves vs _ perm hperm, try_join_impl_resolves vs _ perm hperm⟩

theorem claim_C2_witness :
    join (.tuple [Value.future (.ok (.other "a")), Value.future (.ok (.other "b"))])
      [(1, Except.ok (Value.other "b")), (0, Except.ok (Value.other "a"))]
      = .ok (.tuple [.other "a", .other "b"]) :=
  (claim_C2 [.other "a", .other "b"]
    [(1, Except.ok (Value.other "b")), (0, Except.ok (Value.other "a"))]
    (List.Perm.swap _ _ [])).1

/-- Claim C3: a call with argument count other than one fails with
BadArgumentCount(actual := N, expected := 1) leaving the stack exactly as
it was, for every stack and schedule alike (so no stack value is popped or
inspected); a call with exactly one argument pops exactly one value. -/
theorem claim_C3 (stack : List Value) (args : Nat) (perm : List (Nat × Fut)) :
    (args ≠ 1 → raw_join stack args perm = (.error [.badArgumentCount args 1], stack))
    ∧ ∀ v rest, raw_join (v :: rest) 1 perm
        = (.ok (), Value.future (join v perm) :: rest) := by
  constructor
  · intro h
    simp [raw_join, h]
  · intro v rest
    simp [raw_join]

theorem claim_C3_witness :
    raw_join [Value.emptyTuple] 3 [] = (.error [.badArgumentCount 3 1], [Value.emptyTuple])
    ∧ raw_join [Value.emptyTuple] 1 [] = (.ok (), [Value.future (.ok .emptyTuple)]) :=
  ⟨(claim_C3 [Value.emptyTuple] 3 []).1 (by decide),
   (claim_C3 [Value.emptyTuple] 1 []).2 Value.emptyTuple []⟩

/-- Claim C4: whenever the join succeeds, the output shape equals the input
shape: EmptyTuple input yields the EmptyTuple value, a Tuple input a Tuple,
a Vec input a Vec, and no other input can succeed at all; the shape comes
from the input classification alone. -/
theorem claim_C4 (value : Value) (perm : List (Nat × Fut)) (r : Value)
    (h : join value perm = .ok r) :
    match value with
    | .emptyTuple => r = .emptyTuple
    | .tuple _ => ∃ xs, r = .tuple xs
    | .vec _ => ∃ xs, r = .vec xs
    | _ => False := by
  cases value with
  | emptyTuple =>
    simp only [join, Except.ok.injEq] at h
    exact h.symm
  | tuple items =>
    simp only [join] at h
    obtain ⟨rs, hrs⟩ := try_join_impl_ok h
    simp only [Except.ok.injEq] at hrs
    exact ⟨rs, hrs.symm⟩
  | vec items =>
    simp only [join] at h
    obtain ⟨rs, hrs⟩ := try_join_impl_ok h
    simp only [Except.ok.injEq] at hrs
    exact ⟨rs, hrs.symm⟩
  | future o => exact absurd h (by simp [join])
  | other s => exact absurd h (by simp [join])

theorem claim_C4_witness :
    ∃ xs, Value.tuple [Value.other "a"] = Value.tuple xs :=
  claim_C4 (Value.tuple [Value.future (Except.ok (Value.other "a"))])
    [(0, Except.ok (Value.other "a"))] (Value.tuple [Value.other "a"]) rfl

/-- Claim C5: every empty input resolves immediately: the EmptyTuple input
resolves to the EmptyTuple value under every schedule whatsoever (the join
engine is never consulted), and for an empty Tuple or Vec input the only
schedule permuting the (empty) registered task set is the empty one — zero
completions are awaited — and the join yields the empty result of the same
shape. -/
theorem claim_C5 (perm : List (Nat × Fut)) :
    join .emptyTuple perm = .ok .emptyTuple
    ∧ (perm.Perm (tasksFrom 0 []) →
        perm = []
        ∧ join (.tuple []) perm = .ok (.tuple [])
        ∧ join (.vec []) perm = .ok (.vec [])) := by
  refine ⟨rfl, fun h => ?_⟩
  have hnil : perm = [] := h.eq_nil
  subst hnil
  exact ⟨rfl, rfl, rfl⟩

theorem claim_C5_witness :
    join Value.emptyTuple [] = .ok Value.emptyTuple
    ∧ join (.tuple []) [] = .ok (.tuple [])
    ∧ join (.vec []) [] = .ok (.vec []) := by
  have h := claim_C5 []
  exact ⟨h.1, (h.2 (List.Perm.refl _)).2.1, (h.2 (List.Perm.refl _)).2.2⟩

/-- Claim C6 counterexample: the error for an unsupported input carries
Expected(Vec, observed type) — the expected type reported is the Vec (list)
type — and carries no fact whose expected type reads as the claimed
description of a tuple or list of futures. -/
theorem claim_C6_counterexample :
    join (.other "bool") [] = .error [.badArgument 0, .expected .vec (.other "bool")]
    ∧ VmErrorKind.expected (.other "tuple or list of futures") (.other "bool")
        ∉ ([.badArgument 0, .expected .vec (.other "bool")] : VmError) :=
  ⟨rfl, by decide⟩

/-- Claim C6 (amended): every input that is neither the EmptyTuple nor
Tuple-shaped nor Vec-shaped fails, identically under every schedule and so
before any coercion or concurrent work, with the composite error
[BadArgument(0), Expected(Vec, observed type of the value)]. -/
theorem claim_C6 (v : Value) (perm : List (Nat × Fut))
    (h1 : ∀ items, v ≠ .tuple items) (h2 : ∀ items, v ≠ .vec items)
    (h3 : v ≠ .emptyTuple) :
    join v perm = .error [.badArgument 0, .expected .vec (typeInfo v)] := by
  cases v with
  | emptyTuple => exact absurd rfl h3
  | tuple items => exact absurd rfl (h1 items)
  | vec items => exact absurd rfl (h2 items)
  | future o => rfl
  | other s => rfl

theorem claim_C6_witness :
    join (.future (.ok .emptyTuple)) []
      = .error [.badArgument 0, .expected .vec .future] :=
  claim_C6 (.future (.ok .emptyTuple)) [] (fun _ h => nomatch h)
    (fun _ h => nomatch h) (fun h => nomatch h)

/-- Claim C7: if, in a run over futures with outcomes fouts, the schedule
delivers only successful completions and then a task failing with error e,
the join fails with exactly e — whatever completions would still be pending
afterwards are never consulted — and no partial results are exposed. -/
theorem claim_C7 (fouts : List Fut) (pre post : List (Nat × Fut)) (i : Nat) (e : VmError)
    (hperm : (pre ++ (i, Except.error e) :: post).Perm (tasksFrom 0 fouts))
    (hok : ∀ t ∈ pre, ∃ v, t.2 = Except.ok v) :
    join (.tuple (fouts.map Value.future)) (pre ++ (i, .error e) :: post) = .error e
    ∧ join (.vec (fouts.map Value.future)) (pre ++ (i, .error e) :: post) = .error e :=
  ⟨try_join_impl_task_error fouts _ pre post i e hperm hok,
   try_join_impl_task_error fouts _ pre post i e hperm hok⟩

theorem claim_C7_witness :
    join (.tuple [Value.future (Except.error [VmErrorKind.badArgument 7]),
        Value.future (Except.ok Value.emptyTuple)])
      [(0, Except.error [VmErrorKind.badArgument 7]), (1, Except.ok Value.emptyTuple)]
      = .error [VmErrorKind.badArgument 7] :=
  (claim_C7 [Except.error [VmErrorKind.badArgument 7], Except.ok Value.emptyTuple]
    [] [(1, Except.ok Value.emptyTuple)] 0 [VmErrorKind.badArgument 7]
    (List.Perm.refl _) (fun t ht => absurd ht (List.not_mem_nil t))).1

/-- Claim C8: when coercion fails, the join result is that coercion error
under every completion schedule alike: the outcome never depends on the
futures being driven, so the already-coerced handles are never polled;
coercion of all elements structurally precedes the wait loop. -/
theorem claim_C8 (values : List Value) (factory : List Value → Except VmError Value)
    (e : VmError) (h : coerceLoop 0 values = .error e) :
    ∀ perm : List (Nat × Fut), try_join_impl values factory perm = .error e :=
  fun perm => try_join_impl_coerce_error factory perm h

theorem claim_C8_witness :
    try_join_impl [Value.other "int"] (fun rs => .ok (.tuple rs))
      [(0, Except.ok Value.emptyTuple)]
      = .error [.expected .future (.other "int"), .badArgument 0] :=
  claim_C8 [Value.other "int"] _ _ rfl [(0, Except.ok Value.emptyTuple)]

/-- Claim C9: with exactly one argument the adapter pops exactly the top
value, pushes back exactly one value — the whole join pipeline wrapped as a
future — succeeds synchronously whatever that pipeline will later yield,
leaves the rest of the stack unchanged, and preserves the stack depth. -/
theorem claim_C9 (v : Value) (rest : List Value) (perm : List (Nat × Fut)) :
    raw_join (v :: rest) 1 perm = (.ok (), Value.future (join v perm) :: rest)
    ∧ (Value.future (join v perm) :: rest).length = (v :: rest).length :=
  ⟨rfl, by simp⟩

/-- Claim C10: under the wait-loop invariants — the schedule is a
permutation of the tasks a successful coercion registered — the two
unchecked accesses are total: the next completion on a nonempty stream
always yields some event, every completion index is below the result
buffer length, and the embedded loop coincides with the loop in which both
accesses are total. -/
theorem claim_C10 (values : List Value) (tasks perm : List (Nat × Fut))
    (hc : coerceLoop 0 values = .ok tasks) (hperm : perm.Perm tasks) :
    (∀ futures : List (Nat × Fut), futures ≠ [] →
        ∃ t rest, streamNext futures = some (t, rest))
    ∧ (∀ t ∈ perm, t.1 < values.length)
    ∧ joinLoop perm (List.replicate values.length Value.emptyTuple)
        = joinLoopTotal perm (List.replicate values.length Value.emptyTuple) := by
  obtain ⟨fs, rfl, rfl⟩ := coerceLoop_ok_inv hc
  have hb : ∀ t ∈ perm, t.1 < (fs.map Value.future).length := by
    intro t ht
    have := tasksFrom_fst_upper (hperm.mem_iff.mp ht)
    simpa using by omega
  exact ⟨fun futures h => streamNext_total h, hb,
    joinLoop_eq_total perm _ (by simpa using hb)⟩

theorem claim_C10_witness :
    (∃ t rest, streamNext [(0, Except.ok Value.emptyTuple)] = some (t, rest))
    ∧ joinLoop [(0, Except.ok Value.emptyTuple)] (List.replicate 1 Value.emptyTuple)
        = joinLoopTotal [(0, Except.ok Value.emptyTuple)]
            (List.replicate 1 Value.emptyTuple) := by
  have h := claim_C10 [Value.future (Except.ok Value.emptyTuple)]
    [(0, Except.ok Value.emptyTuple)] [(0, Except.ok Value.emptyTuple)] rfl
    (List.Perm.refl _)
  exact ⟨h.1 _ (by simp), h.2.2⟩

end Rune
